import Mathlib

/-!
Verification of the repository-to-txt conversion pipeline.

This file gives a shallow embedding of the program's three variants:
the remote-API route (`src/app/api/analyze/route.ts`, first document),
the full-copy route (same file, second document), and the local
drag-and-drop variant (`src/app/page.tsx`), together with the constants
module (`src/unnamed/part_001`, imported by `page.tsx` as
`@/app/constants/files`).  Definitions are translated from the source;
spec-side definitions used for comparison are clearly marked.
-/

/-- A collected file record: `{ path, content }` as in
`fileContents: { path: string; content: string }[]` of `route.ts`. -/
structure FileRecord where
  path : String
  content : String
deriving DecidableEq, Repr

/-- A progress-channel message.  The source sends JS objects whose fields
`progress`, `status`, `content`, `error` may each be absent; absent fields
are `none`.  JS numbers are modelled as rationals (all progress arithmetic
in the source stays within small exact fractions). -/
structure Message where
  progress : Option Rat := none
  status : Option String := none
  content : Option String := none
  error : Option String := none
deriving DecidableEq

/-- `ALLOWED_EXTENSIONS` from `route.ts` (both documents, identical). -/
def ALLOWED_EXTENSIONS : List String := [".js", ".jsx", ".ts", ".tsx", ".py", ".json"]

/-- `EXCLUDED_FILES` from `route.ts` (both documents, identical). -/
def EXCLUDED_FILES : List String := ["package-lock.json", "yarn.lock"]

/-- `EXCLUDED_DIRS` from `route.ts` (both documents, identical). -/
def EXCLUDED_DIRS : List String := ["node_modules", ".next", "__pycache__", ".git"]

namespace FilesConstants

/-- `ALLOWED_EXTENSIONS` from `src/unnamed/part_001` (`@/app/constants/files`). -/
def ALLOWED_EXTENSIONS : List String := [".js", ".jsx", ".ts", ".tsx", ".py", ".json"]

/-- `EXCLUDED_FILES` from `src/unnamed/part_001`: note that it also lists
`package.json`, lint configs and `README.md`. -/
def EXCLUDED_FILES : List String :=
  ["package-lock.json", "yarn.lock", "package.json", "pnpm-lock.json",
   ".eslintrc.json", ".prettierrc.json", "README.md"]

/-- `EXCLUDED_DIRS` from `src/unnamed/part_001`. -/
def EXCLUDED_DIRS : List String := ["node_modules", ".next", "__pycache__", ".git", "_next"]

end FilesConstants

/-- Node's `path.basename` for the slash-free-segment POSIX paths this
program produces: the part after the last `/`. -/
def basename (p : String) : String :=
  String.mk ((p.data.reverse.takeWhile (fun c => c ≠ '/')).reverse)

/-- Node's `path.extname`: the suffix of the basename starting at its last
dot, except that a dot in position 0 of the basename (dotfiles) and a
dotless basename give `""`. -/
def extname (p : String) : String :=
  let b := (basename p).data
  let tail := b.reverse.takeWhile (fun c => c ≠ '.')
  if tail.length = b.length then ""
  else if tail.length + 1 = b.length then ""
  else String.mk ('.' :: tail.reverse)

/-- Scan for `needle` as a contiguous run starting at any position. -/
def infixAt (needle : List Char) : List Char → Bool
  | [] => needle.isEmpty
  | c :: rest => needle.isPrefixOf (c :: rest) || infixAt needle rest

/-- JS `haystack.includes(needle)` (substring containment). -/
def containsSub (hay needle : String) : Bool := infixAt needle.data hay.data

/-- The per-entry formatting used by all three variants:
`"// Path: " + path + "\n" + content + "\n\n"`. -/
def formatEntry (f : FileRecord) : String :=
  "// Path: " ++ f.path ++ "\n" ++ f.content ++ "\n\n"

/-! ### The sort comparator

All sorting in the source is `files.sort((a, b) => a.path.localeCompare(b.path))`.
`localeCompare` with no arguments collates in the host's default locale.
The model below follows the ICU root collation restricted to ASCII: strings
compare first by their case-folded character sequence (primary level), then
by case, lowercase before uppercase (tertiary level), then -- as an exact
tie-break making the comparison a linear order -- by code points.  On the
ASCII letter/digit data used in this development this agrees with
`localeCompare` in Node's default locale. -/

/-- Three-way comparison on naturals. -/
def cmpNat (a b : Nat) : Ordering :=
  if a < b then .lt else if b < a then .gt else .eq

/-- Lexicographic three-way comparison on lists of naturals. -/
def cmpListNat : List Nat → List Nat → Ordering
  | [], [] => .eq
  | [], _ :: _ => .lt
  | _ :: _, [] => .gt
  | a :: as, b :: bs => (cmpNat a b).then (cmpListNat as bs)

/-- Primary collation key: case-folded code points. -/
def primKey (s : String) : List Nat := s.data.map (fun c => c.toLower.toNat)

/-- Tertiary collation key: 0 for lowercase/other, 1 for uppercase
(ICU root sorts lowercase before uppercase). -/
def caseKey (s : String) : List Nat := s.data.map (fun c => if c.isUpper then 1 else 0)

/-- Code-point key (final tie-break). -/
def codeKey (s : String) : List Nat := s.data.map Char.toNat

/-- Model of `a.localeCompare(b)` as a three-way comparison (see above). -/
def localeCmp (a b : String) : Ordering :=
  (cmpListNat (primKey a) (primKey b)).then
    ((cmpListNat (caseKey a) (caseKey b)).then (cmpListNat (codeKey a) (codeKey b)))

/-- The non-strict order induced by the comparator (`cmp <= 0`). -/
def localeLe (a b : String) : Prop := localeCmp a b ≠ .gt

instance (a b : String) : Decidable (localeLe a b) := by
  unfold localeLe; infer_instance

/-- Record order used by `files.sort((a, b) => a.path.localeCompare(b.path))`. -/
def fileLe (a b : FileRecord) : Prop := localeLe a.path b.path

instance (a b : FileRecord) : Decidable (fileLe a b) := by
  unfold fileLe; infer_instance

/-- JS `Array.prototype.sort` with a consistent comparator is a stable sort;
`List.insertionSort` with the non-strict comparator order is exactly the
stable sort. -/
def sortFiles (l : List FileRecord) : List FileRecord := List.insertionSort fileLe l

/-! ### Serialization (remote-API variant, `route.ts` lines 157-179)

The loop walks the sorted records, appends each formatted entry to
`currentBatch`, and flushes a `content` message followed by a `progress`
message when `(i + 1) % 10 === 0` or the record is the last one. -/

/-- The batch-emission loop body.  `total` is `fileContents.length`,
`i` the current index, `batch` the accumulated `currentBatch`. -/
def serializeGo (total : Nat) : Nat → String → List FileRecord → List Message
  | _, _, [] => []
  | i, batch, f :: rest =>
    let b := batch ++ formatEntry f
    if (i + 1) % 10 = 0 ∨ rest = [] then
      { content := some b } ::
      { progress := some ((90 + (10 * (i + 1)) / total : Nat) : Rat),
        status := some ("Processing files... (" ++ toString (i + 1) ++ "/" ++ toString total ++ ")") } ::
      serializeGo total (i + 1) "" rest
    else
      serializeGo total (i + 1) b rest

/-- Messages emitted by the sort-and-batch stage for a given collected
file list (`route.ts` lines 157-177). -/
def remoteEmit (files : List FileRecord) : List Message :=
  serializeGo files.length 0 "" files

/-- Concatenation of a list of strings, in order. -/
def joinAll : List String → String
  | [] => ""
  | s :: rest => s ++ joinAll rest

/-- The conversion artifact as observed by the consumer: the concatenation
of the `content` fields of the streamed messages. -/
def contentConcat (evs : List Message) : String :=
  joinAll (evs.filterMap Message.content)

/-- The local variant's result assembly (`page.tsx` lines 99-106): sort by
`localeCompare`, then `result += formatEntry(file)`. -/
def localArtifact (files : List FileRecord) : String :=
  (sortFiles files).foldl (fun acc f => acc ++ formatEntry f) ""

/-- Spec-side definition (refinement target for C2): byte-wise,
locale-independent lexicographic comparison of paths, per the spec's words
"Sort by path using byte-wise/locale-independent lexicographic comparison". -/
def byteLe (a b : String) : Prop := cmpListNat (codeKey a) (codeKey b) ≠ .gt

instance (a b : String) : Decidable (byteLe a b) := by
  unfold byteLe; infer_instance

/-- Spec-side artifact (C2): concatenation in byte-wise sorted path order. -/
def byteArtifact (files : List FileRecord) : String :=
  joinAll ((List.insertionSort (fun a b => byteLe a.path b.path) files).map formatEntry)

/-! ### C1: artifact equals concatenation of formatted entries in sorted order -/

lemma contentConcat_cons_some (b : String) (p : Option Rat) (s : Option String)
    (rest : List Message) :
    contentConcat ({ content := some b } ::
      { progress := p, status := s } :: rest) = b ++ contentConcat rest := by
  simp [contentConcat, joinAll, List.filterMap]

lemma contentConcat_nil : contentConcat [] = "" := rfl

/-- The batch loop streams exactly the concatenation of the formatted
entries it is given (the trailing batch is always flushed because the
last index satisfies `i === fileContents.length - 1`). -/
lemma serializeGo_content (total : Nat) :
    ∀ (files : List FileRecord) (i : Nat) (batch : String), files ≠ [] →
      contentConcat (serializeGo total i batch files) =
        batch ++ joinAll (files.map formatEntry) := by
  intro files
  induction files with
  | nil => intro i batch h; exact absurd rfl h
  | cons f rest ih =>
    intro i batch _
    rcases eq_or_ne rest [] with hrest | hrest
    · subst hrest
      rw [serializeGo, if_pos (Or.inr rfl), contentConcat_cons_some]
      simp [serializeGo, contentConcat_nil, joinAll]
    · by_cases hmod : (i + 1) % 10 = 0
      · rw [serializeGo, if_pos (Or.inl hmod), contentConcat_cons_some,
          ih (i + 1) "" hrest]
        simp [joinAll, String.append_assoc]
      · rw [serializeGo, if_neg (by tauto), ih (i + 1) (batch ++ formatEntry f) hrest]
        simp [joinAll, String.append_assoc]

lemma localArtifact_foldl (files : List FileRecord) :
    ∀ acc : String, files.foldl (fun a f => a ++ formatEntry f) acc =
      acc ++ joinAll (files.map formatEntry) := by
  induction files with
  | nil => intro acc; simp [joinAll]
  | cons f rest ih =>
    intro acc
    simp only [List.foldl, List.map, joinAll, ih, String.append_assoc]

/-- C1: for every list of included files, the concatenation of all streamed
`content` chunks produced by the remote variant's batch loop equals the
concatenation, in sorted path order, of `"// Path: {path}\n{content}\n\n"`
per file; the local variant assembles the identical string directly; and on
the concrete file set `{a/x.ts: "1", b/y.py: "2"}` both equal exactly
`"// Path: a/x.ts\n1\n\n// Path: b/y.py\n2\n\n"`. -/
theorem C1_artifact_is_sorted_concatenation :
    (∀ files : List FileRecord,
      contentConcat (remoteEmit (sortFiles files)) =
        joinAll ((sortFiles files).map formatEntry) ∧
      localArtifact files = joinAll ((sortFiles files).map formatEntry)) ∧
    contentConcat (remoteEmit (sortFiles [⟨"a/x.ts", "1"⟩, ⟨"b/y.py", "2"⟩])) =
      "// Path: a/x.ts\n1\n\n// Path: b/y.py\n2\n\n" ∧
    localArtifact [⟨"a/x.ts", "1"⟩, ⟨"b/y.py", "2"⟩] =
      "// Path: a/x.ts\n1\n\n// Path: b/y.py\n2\n\n" := by
  refine ⟨fun files => ⟨?_, ?_⟩, by decide, by decide⟩
  · rcases eq_or_ne (sortFiles files) [] with h | h
    · rw [h]; rfl
    · rw [remoteEmit, serializeGo_content _ _ 0 "" h]
      simp
  · rw [localArtifact, localArtifact_foldl]
    simp
section C2Block

/-! ### C2: ordering properties of the sort comparator -/

lemma thenEq (o p : Ordering) : o.then p = .eq ↔ o = .eq ∧ p = .eq := by
  cases o <;> simp [Ordering.then]

lemma thenGt (o p : Ordering) : o.then p = .gt ↔ o = .gt ∨ (o = .eq ∧ p = .gt) := by
  cases o <;> simp [Ordering.then]

lemma thenSwap (o p : Ordering) : (o.then p).swap = o.swap.then p.swap := by
  cases o <;> rfl

lemma cmpNat_eq_iff (a b : Nat) : cmpNat a b = .eq ↔ a = b := by
  unfold cmpNat; split_ifs <;> simp <;> omega

lemma cmpNat_ne_gt_iff (a b : Nat) : cmpNat a b ≠ .gt ↔ a ≤ b := by
  unfold cmpNat; split_ifs <;> simp <;> omega

lemma cmpNat_swap (a b : Nat) : (cmpNat a b).swap = cmpNat b a := by
  unfold cmpNat; split_ifs <;> first | rfl | omega

lemma cmpListNat_eq_iff : ∀ x y : List Nat, cmpListNat x y = .eq ↔ x = y := by
  intro x
  induction x with
  | nil => intro y; cases y <;> simp [cmpListNat]
  | cons a as ih =>
    intro y
    cases y with
    | nil => simp [cmpListNat]
    | cons b bs => simp [cmpListNat, thenEq, cmpNat_eq_iff, ih]

lemma cmpListNat_swap : ∀ x y : List Nat, (cmpListNat x y).swap = cmpListNat y x := by
  intro x
  induction x with
  | nil => intro y; cases y <;> rfl
  | cons a as ih =>
    intro y
    cases y with
    | nil => rfl
    | cons b bs => simp only [cmpListNat]; rw [thenSwap, cmpNat_swap, ih]

lemma cmpListNat_antisymm {x y : List Nat} (h1 : cmpListNat x y ≠ .gt)
    (h2 : cmpListNat y x ≠ .gt) : x = y := by
  rw [← cmpListNat_swap x y] at h2
  rw [← cmpListNat_eq_iff x y]
  rcases h : cmpListNat x y with _ | _ | _
  · rw [h] at h2; exact absurd rfl h2
  · rfl
  · exact absurd h h1

lemma cmpListNat_trans : ∀ x y z : List Nat,
    cmpListNat x y ≠ .gt → cmpListNat y z ≠ .gt → cmpListNat x z ≠ .gt := by
  intro x
  induction x with
  | nil =>
    intro y z _ _
    cases z <;> simp [cmpListNat]
  | cons a as ih =>
    intro y z h1 h2
    cases y with
    | nil => simp [cmpListNat] at h1
    | cons b bs =>
      cases z with
      | nil => simp [cmpListNat] at h2
      | cons c cs =>
        simp only [cmpListNat] at h1 h2 ⊢
        rw [Ne, thenGt] at h1 h2 ⊢
        push_neg at h1 h2 ⊢
        obtain ⟨hab, hab'⟩ := h1
        obtain ⟨hbc, hbc'⟩ := h2
        have tab : a ≤ b := (cmpNat_ne_gt_iff a b).mp hab
        have tbc : b ≤ c := (cmpNat_ne_gt_iff b c).mp hbc
        refine ⟨(cmpNat_ne_gt_iff a c).mpr (le_trans tab tbc), ?_⟩
        intro hac
        have hac' : a = c := (cmpNat_eq_iff a c).mp hac
        have hb : a = b := by omega
        subst hb; subst hac'
        have he : cmpNat a a = .eq := (cmpNat_eq_iff a a).mpr rfl
        exact ih bs cs (hab' he) (hbc' he)

lemma localeCmp_swap (a b : String) : (localeCmp a b).swap = localeCmp b a := by
  unfold localeCmp
  rw [thenSwap, thenSwap, cmpListNat_swap, cmpListNat_swap, cmpListNat_swap]

lemma localeLe_total (a b : String) : localeLe a b ∨ localeLe b a := by
  unfold localeLe
  by_cases h : localeCmp a b = .gt
  · right
    rw [← localeCmp_swap a b, h]
    decide
  · left; exact h

lemma localeLe_trans {a b c : String} (h1 : localeLe a b) (h2 : localeLe b c) :
    localeLe a c := by
  unfold localeLe localeCmp at h1 h2 ⊢
  rw [Ne, thenGt] at h1 h2 ⊢
  push_neg at h1 h2 ⊢
  obtain ⟨p1, q1⟩ := h1
  obtain ⟨p2, q2⟩ := h2
  refine ⟨cmpListNat_trans _ _ _ p1 p2, ?_⟩
  intro hpeq
  have hkey : primKey a = primKey c := (cmpListNat_eq_iff _ _).mp hpeq
  have hp1 : primKey a = primKey b := by
    apply cmpListNat_antisymm p1
    rw [← hkey] at p2
    exact p2
  have e1 : cmpListNat (primKey a) (primKey b) = .eq := (cmpListNat_eq_iff _ _).mpr hp1
  have e2 : cmpListNat (primKey b) (primKey c) = .eq :=
    (cmpListNat_eq_iff _ _).mpr (hp1 ▸ hkey)
  have r1 := q1 e1
  have r2 := q2 e2
  rw [Ne, thenGt] at r1 r2
  push_neg at r1 r2
  rw [Ne, thenGt]
  push_neg
  obtain ⟨s1, t1⟩ := r1
  obtain ⟨s2, t2⟩ := r2
  refine ⟨cmpListNat_trans _ _ _ s1 s2, ?_⟩
  intro hceq
  have hckey : caseKey a = caseKey c := (cmpListNat_eq_iff _ _).mp hceq
  have hc1 : caseKey a = caseKey b := by
    apply cmpListNat_antisymm s1
    rw [← hckey] at s2
    exact s2
  have f1 := t1 ((cmpListNat_eq_iff _ _).mpr hc1)
  have f2 := t2 ((cmpListNat_eq_iff _ _).mpr (hc1 ▸ hckey))
  exact cmpListNat_trans _ _ _ f1 f2

lemma char_toNat_injective : Function.Injective Char.toNat := by
  intro a b h
  exact Char.ext (UInt32.toNat.inj h)

lemma codeKey_injective {a b : String} (h : codeKey a = codeKey b) : a = b := by
  unfold codeKey at h
  exact String.ext (List.map_injective_iff.mpr char_toNat_injective h)

lemma localeLe_antisymm {a b : String} (h1 : localeLe a b) (h2 : localeLe b a) :
    a = b := by
  unfold localeLe at h1 h2
  rw [← localeCmp_swap a b] at h2
  have heq : localeCmp a b = .eq := by
    rcases h : localeCmp a b with _ | _ | _
    · rw [h] at h2; exact absurd rfl h2
    · rfl
    · exact absurd h h1
  unfold localeCmp at heq
  rw [thenEq, thenEq] at heq
  exact codeKey_injective ((cmpListNat_eq_iff _ _).mp heq.2.2)

instance : IsTotal FileRecord fileLe :=
  ⟨fun a b => localeLe_total a.path b.path⟩

instance : IsTrans FileRecord fileLe :=
  ⟨fun _ _ _ h1 h2 => localeLe_trans h1 h2⟩

/-- Two sorted permutations of a list with pairwise-distinct paths are equal:
the stable sort's output depends only on the multiset of records. -/
lemma sorted_perm_nodup_eq :
    ∀ l₁ l₂ : List FileRecord, l₁.Perm l₂ → l₁.Sorted fileLe → l₂.Sorted fileLe →
      (l₁.map FileRecord.path).Nodup → l₁ = l₂ := by
  intro l₁
  induction l₁ with
  | nil => intro l₂ hp _ _ _; exact (hp.nil_eq).symm ▸ rfl
  | cons a t₁ ih =>
    intro l₂ hp hs₁ hs₂ hnd
    cases l₂ with
    | nil => exact absurd hp.symm.nil_eq (by simp)
    | cons b t₂ =>
      have hb₁ : b ∈ a :: t₁ := hp.mem_iff.mpr (List.mem_cons_self b t₂)
      have ha₂ : a ∈ b :: t₂ := hp.mem_iff.mp (List.mem_cons_self a t₁)
      have hrefl : ∀ x : FileRecord, fileLe x x := fun x =>
        (localeLe_total x.path x.path).elim id id
      have hab : fileLe a b := by
        rcases List.mem_cons.mp hb₁ with h | h
        · rw [h]; exact hrefl a
        · exact (List.sorted_cons.mp hs₁).1 b h
      have hba : fileLe b a := by
        rcases List.mem_cons.mp ha₂ with h | h
        · rw [h]; exact hrefl b
        · exact (List.sorted_cons.mp hs₂).1 a h
      have hpath : a.path = b.path := localeLe_antisymm hab hba
      have hbeq : b = a := by
        rcases List.mem_cons.mp hb₁ with h | h
        · exact h
        · exfalso
          have : a.path ∈ t₁.map FileRecord.path := by
            rw [hpath]; exact List.mem_map_of_mem FileRecord.path h
          exact (List.nodup_cons.mp hnd).1 this
      subst hbeq
      have ht : t₁ = t₂ :=
        ih t₂ hp.cons_inv (List.sorted_cons.mp hs₁).2 (List.sorted_cons.mp hs₂).2
          (List.nodup_cons.mp hnd).2
      rw [ht]

/-- C2 counterexample: with files `B.ts` and `a.ts`, the code's
`localeCompare` sort places `a.ts` first (case-insensitive primary level),
while byte-wise lexicographic comparison places `B.ts` (code point 66)
before `a.ts` (code point 97); the produced artifact differs from the
byte-wise-ordered artifact, so the claimed ordering is false. -/
theorem C2_counterexample :
    sortFiles [⟨"B.ts", "X"⟩, ⟨"a.ts", "Y"⟩] = [⟨"a.ts", "Y"⟩, ⟨"B.ts", "X"⟩] ∧
    List.insertionSort (fun a b => byteLe a.path b.path)
      ([⟨"B.ts", "X"⟩, ⟨"a.ts", "Y"⟩] : List FileRecord) =
      [⟨"B.ts", "X"⟩, ⟨"a.ts", "Y"⟩] ∧
    localArtifact [⟨"B.ts", "X"⟩, ⟨"a.ts", "Y"⟩] ≠
      byteArtifact [⟨"B.ts", "X"⟩, ⟨"a.ts", "Y"⟩] := by
  refine ⟨by decide, by decide, by decide⟩

/-- C2 amended: in the remote-API and local variants the included files are
ordered by the `localeCompare` collation (locale-dependent, not byte-wise);
for a fixed collation this order is a pure function of the set of included
records: any two enumerations of the same record set with pairwise-distinct
paths sort identically and yield byte-identical artifacts. -/
theorem C2_order_pure_function_of_set (l₁ l₂ : List FileRecord)
    (hnd : (l₁.map FileRecord.path).Nodup) (hp : l₁.Perm l₂) :
    sortFiles l₁ = sortFiles l₂ ∧ localArtifact l₁ = localArtifact l₂ ∧
      contentConcat (remoteEmit (sortFiles l₁)) =
        contentConcat (remoteEmit (sortFiles l₂)) := by
  have hsort : sortFiles l₁ = sortFiles l₂ := by
    apply sorted_perm_nodup_eq
    · exact (List.perm_insertionSort fileLe l₁).trans
        (hp.trans (List.perm_insertionSort fileLe l₂).symm)
    · exact List.sorted_insertionSort fileLe l₁
    · exact List.sorted_insertionSort fileLe l₂
    · have hmp : List.Perm ((sortFiles l₁).map FileRecord.path)
          (l₁.map FileRecord.path) :=
        (List.perm_insertionSort fileLe l₁).map FileRecord.path
      exact hmp.nodup_iff.mpr hnd
  refine ⟨hsort, ?_, by rw [hsort]⟩
  unfold localArtifact
  rw [hsort]

/-- Witness for C2: two enumeration orders of the same two-file set produce
the identical sorted order and artifact. -/
theorem C2_order_pure_function_of_set_witness :
    sortFiles [⟨"b.ts", "2"⟩, ⟨"a.ts", "1"⟩] = sortFiles [⟨"a.ts", "1"⟩, ⟨"b.ts", "2"⟩] ∧
    localArtifact [⟨"b.ts", "2"⟩, ⟨"a.ts", "1"⟩] =
      localArtifact [⟨"a.ts", "1"⟩, ⟨"b.ts", "2"⟩] ∧
    contentConcat (remoteEmit (sortFiles [⟨"b.ts", "2"⟩, ⟨"a.ts", "1"⟩])) =
      contentConcat (remoteEmit (sortFiles [⟨"a.ts", "1"⟩, ⟨"b.ts", "2"⟩])) :=
  C2_order_pure_function_of_set _ _ (by decide) (by decide)

end C2Block

/-! ### Filter predicates of the three variants -/

/-- Join a directory path and a child name; an empty base (repository root,
or the falsy `path` in `page.tsx`) yields the bare name. -/
def joinPath (base name : String) : String :=
  if base = "" then name else base ++ "/" ++ name

/-- Remote-API variant file condition (`route.ts` lines 133-139):
`!EXCLUDED_FILES.includes(basename) && (ALLOWED_EXTENSIONS.includes(ext) ||
basename === "README.md")`. -/
def fileOK (p : String) : Bool :=
  !(EXCLUDED_FILES.contains (basename p)) &&
    (ALLOWED_EXTENSIONS.contains (extname p) || basename p == "README.md")

/-- Remote-API variant directory pruning test (`route.ts` line 130):
`EXCLUDED_DIRS.some((dir) => item.path.includes(dir))` -- a substring test
on the whole path, not a segment test. -/
def exclSub (p : String) : Bool :=
  EXCLUDED_DIRS.any (fun d => containsSub p d)

/-- Full-copy variant per-file filter (`route.ts` lines 316-323): the loop
`continue`s when the basename is excluded, when any excluded directory name
occurs as a substring of the relative path, or when the extension is not
allowed and the basename is not `README.md`; this is the negation. -/
def fullCopyIncluded (relPath : String) : Bool :=
  !(EXCLUDED_FILES.contains (basename relPath) ||
    EXCLUDED_DIRS.any (fun d => containsSub relPath d) ||
    (!(ALLOWED_EXTENSIONS.contains (extname relPath)) && basename relPath != "README.md"))

/-- Local variant extension computation (`page.tsx` line 51):
`"." + file.name.split(".").pop()?.toLowerCase()` -- the part of the name
after its last dot (the whole name when dotless), lowercased. -/
def localExt (name : String) : String :=
  "." ++ String.mk (((name.data.reverse.takeWhile (fun c => c ≠ '.')).reverse).map Char.toLower)

/-- Local variant file filter (`page.tsx` lines 54-57), using the constants
module's lists. -/
def localIncluded (name : String) : Bool :=
  !(FilesConstants.EXCLUDED_FILES.contains name) &&
    (FilesConstants.ALLOWED_EXTENSIONS.contains (localExt name) || name == "README.md")

/-- C4: `package-lock.json` is excluded by all three variants regardless of
extension, as claimed; but `README.md` is only included by the two server
variants: the local variant's constants module lists `README.md` in
`EXCLUDED_FILES`, which defeats the explicit
`|| file.name === "README.md"` always-include branch in `page.tsx`
(that branch is dead code), so a local drop excludes `README.md`. -/
theorem C4_readme_divergence :
    fileOK "package-lock.json" = false ∧
    fullCopyIncluded "package-lock.json" = false ∧
    localIncluded "package-lock.json" = false ∧
    fileOK "README.md" = true ∧
    fullCopyIncluded "README.md" = true ∧
    localIncluded "README.md" = false := by
  decide

/-! ### C9: the consumer's stream-processing loop (`page.tsx` lines 180-237) -/

/-- Consumer-side UI state (the React state set by `handleSubmit`). -/
structure CState where
  progress : Rat := 0
  status : String := ""
  result : String := ""
  error : String := ""
  logs : List String := []
deriving DecidableEq

/-- State before the stream loop (`handleSubmit` lines 156-161). -/
def initialConsumer : CState :=
  { progress := 0, status := "Initializing...", result := "", error := "", logs := [] }

/-- Processing of one line of the channel (`page.tsx` lines 199-221).
`none` models a line on which `JSON.parse` throws.  Crucially, the
`throw new Error(data.error)` for an error event is *inside* the same
`try` block as `JSON.parse`, so it is caught by the adjacent
`catch (e) { addLog("Error parsing message ...") }` and the loop
continues; it never reaches the outer catch that sets the error banner. -/
def consumeLine (st : CState) (line : Option Message) : CState :=
  match line with
  | none => { st with logs := st.logs ++ ["Error parsing message"] }
  | some m =>
    let st := { st with logs := st.logs ++ ["Processed message"] }
    match m.error with
    | some e =>
      if e ≠ "" then { st with logs := st.logs ++ ["Error parsing message"] }
      else applyFields st m
    | none => applyFields st m
where
  /-- The `progress`/`status`/`content` updates with JS truthiness checks. -/
  applyFields (st : CState) (m : Message) : CState :=
    let st := match m.progress with
      | some q => { st with progress := q }
      | none => st
    let st := match m.status with
      | some s => if s ≠ "" then { st with status := s } else st
      | none => st
    match m.content with
    | some c => if c ≠ "" then { st with result := st.result ++ c } else st
    | none => st

/-- The whole stream loop followed by `setStatus("Analysis complete")`
(`page.tsx` line 224), which runs because no exception escapes the loop. -/
def consumeStream (lines : List (Option Message)) : CState :=
  let st := lines.foldl consumeLine initialConsumer
  { st with status := "Analysis complete" }

/-- C9: a well-formed terminal `{error: message}` line does *not* surface a
visible error: it is swallowed by the message-parse catch (logged as
"Error parsing message"), the error banner stays empty and the run ends
with status "Analysis complete", contradicting the claim; only the claim's
second half (an unparseable line is a non-fatal logged skip) holds, as the
continued processing after a `none` line shows. -/
theorem C9_error_event_swallowed :
    (consumeStream [some { error := some "GitHub API error: Not Found" }]).error = "" ∧
    (consumeStream [some { error := some "GitHub API error: Not Found" }]).status =
      "Analysis complete" ∧
    (consumeStream [some { error := some "GitHub API error: Not Found" }]).logs =
      ["Processed message", "Error parsing message"] ∧
    (consumeStream [none, some { content := some "X" }]).result = "X" ∧
    (consumeStream [none, some { content := some "X" }]).error = "" := by
  decide

/-! ### C10: local drag-and-drop traversal (`page.tsx` lines 44-97) -/

/-- A browser directory-entry tree (`FileSystemEntry`). -/
inductive WEntry where
  | file (name : String) (content : String)
  | dir (name : String) (entries : List WEntry)

mutual

/-- `processEntry` from `page.tsx`: a file is filtered and collected; for a
directory the code awaits a *single* `readEntries()` call and recurses over
the returned batch when the directory name is not excluded.  `lim` is the
environment's batch size.  Modelled from the environment: the
FileSystemDirectoryReader of Chromium-family browsers returns at most 100
entries per `readEntries` call (the API returns the tree in batches); the
code never calls `readEntries` again, so only the first batch is seen. -/
def processEntry (lim : Nat) : WEntry → String → List FileRecord
  | .file name content, path =>
    if localIncluded name then [⟨joinPath path name, content⟩] else []
  | .dir name entries, path =>
    if FilesConstants.EXCLUDED_DIRS.contains name then []
    else processBatch lim (joinPath path name) lim entries

/-- Iteration over the batch returned by the single `readEntries` call:
the first `lim` entries of the directory. -/
def processBatch (lim : Nat) (dirPath : String) : Nat → List WEntry → List FileRecord
  | _, [] => []
  | 0, _ :: _ => []
  | k + 1, e :: rest => processEntry lim e dirPath ++ processBatch lim dirPath k rest

end

mutual

/-- Spec-side definition of the local traversal ("produce the full set of
`TreeEntry` nodes reachable from the root"): identical filtering and
recursion, but every entry of a visited directory is visited. -/
def specVisit : WEntry → String → List FileRecord
  | .file name content, path =>
    if localIncluded name then [⟨joinPath path name, content⟩] else []
  | .dir name entries, path =>
    if FilesConstants.EXCLUDED_DIRS.contains name then []
    else specVisitAll (joinPath path name) entries

/-- Visit all entries of a directory, in order. -/
def specVisitAll (dirPath : String) : List WEntry → List FileRecord
  | [] => []
  | e :: rest => specVisit e dirPath ++ specVisitAll dirPath rest

end

/-- A directory of 101 allowed files. -/
def bigDir : WEntry :=
  .dir "src" ((List.range 101).map (fun i => .file ("f" ++ toString i ++ ".ts") "x"))

/-- C10: with the browser's 100-entry `readEntries` batching, the single
`readEntries()` call makes the traversal visit only the first 100 entries
of a 101-entry directory: one reachable file is never visited, contradicting
"every entry ... is visited exactly once, regardless of how many entries a
directory contains".  (For directories that fit in one batch the code and
the spec-side traversal agree, as the second conjunct's bound shows.) -/
theorem C10_readEntries_single_batch :
    (processEntry 100 bigDir "").length = 100 ∧
    (specVisit bigDir "").length = 101 := by
  decide

/-! ### Remote-API traversal (`route.ts` lines 107-186)

`processContents` lists a directory via the GitHub contents API and walks
the listing: already-processed paths are skipped (`processedPaths`),
directories are pruned when any `EXCLUDED_DIRS` entry occurs as a substring
of their path, files passing the filter are fetched and appended, and a
progress message is sent after each fetched file.  The repository is
modelled as a tree of named items; `fetch` models the per-file raw-content
request keyed by path (may fail), `lsErr` models a failing directory
listing request (`none` = the listing succeeds and returns the tree's
children). -/

/-- `Math.min` on JS numbers. -/
def jsMin (a b : Rat) : Rat := if a ≤ b then a else b

/-- A node of the remote repository tree. -/
inductive RItem where
  | file (name : String)
  | dir (name : String) (sub : List RItem)

/-- Item name (the GitHub API returns `path = parentPath/name`). -/
def RItem.name : RItem → String
  | .file n => n
  | .dir n _ => n

/-- The mutable state of `processRepository`: the dedup set, the collected
records, and the messages sent so far. -/
structure PState where
  processed : List String
  files : List FileRecord
  events : List Message

mutual

/-- One iteration of the `for (const item of contents)` loop
(`route.ts` lines 125-152).  `len` is `contents.length` of the listing the
item came from. -/
def procItem (fetch : String → Except String String) (lsErr : String → Option String)
    (dirPath : String) (len : Nat) (it : RItem) (st : PState) : PState × Option String :=
  let p := joinPath dirPath it.name
  if p ∈ st.processed then (st, none)
  else
    let st1 : PState := { st with processed := p :: st.processed }
    match it with
    | .dir _ sub =>
      if exclSub p then (st1, none)
      else
        match lsErr p with
        | some e => (st1, some e)
        | none => procSeq fetch lsErr p sub.length sub st1
    | .file _ =>
      if fileOK p then
        match fetch p with
        | .error e => (st1, some e)
        | .ok content =>
          let files' := st1.files ++ [⟨p, content⟩]
          (⟨st1.processed, files',
            st1.events ++
              [{ progress := some (jsMin 90 (5 + (85 * (files'.length : Rat)) / (len : Rat))),
                 status := some ("Processing file: " ++ p) }]⟩, none)
      else (st1, none)

/-- The loop over a directory listing; an error aborts the remaining
items (the thrown exception propagates). -/
def procSeq (fetch : String → Except String String) (lsErr : String → Option String)
    (dirPath : String) (len : Nat) : List RItem → PState → PState × Option String
  | [], st => (st, none)
  | it :: rest, st =>
    match procItem fetch lsErr dirPath len it st with
    | (st', some e) => (st', some e)
    | (st', none) => procSeq fetch lsErr dirPath len rest st'

end

/-- The message sent before the traversal (`route.ts` lines 114-117). -/
def initialEvents : List Message :=
  [{ progress := some 5, status := some "Fetching repository contents..." }]

/-- `processRepository` of the remote variant: initial message, traversal
from the root listing, then sort, batch serialization, and the final
`progress: 100` message; a thrown error propagates with the messages sent
so far. -/
def processRepositoryV1 (fetch : String → Except String String)
    (lsErr : String → Option String) (tree : List RItem) : List Message × Option String :=
  match lsErr "" with
  | some e => (initialEvents, some e)
  | none =>
    match procSeq fetch lsErr "" tree.length tree ⟨[], [], initialEvents⟩ with
    | (st, some e) => (st.events, some e)
    | (st, none) =>
      let sorted := sortFiles st.files
      (st.events ++ serializeGo sorted.length 0 "" sorted ++
        [{ progress := some 100, status := some "Analysis complete!" }], none)

/-- The request handler's promise chain (`route.ts` lines 37-45): on
rejection the catch sends a final `{error}` message, and the finally
closes the stream writer in either case.  Result: (transcript, closed). -/
def runPOSTv1 (fetch : String → Except String String) (lsErr : String → Option String)
    (tree : List RItem) : List Message × Bool :=
  match processRepositoryV1 fetch lsErr tree with
  | (evs, some e) => (evs ++ [{ error := some e }], true)
  | (evs, none) => (evs, true)

mutual

/-- Spec-side stateless description of the traversal's collected records:
prune excluded directories, filter files, fetch content. -/
def specFile (g : String → String) (dirPath : String) : RItem → List FileRecord
  | .file n =>
    let p := joinPath dirPath n
    if fileOK p then [⟨p, g p⟩] else []
  | .dir n sub =>
    let p := joinPath dirPath n
    if exclSub p then [] else specSeq g p sub

/-- List version of `specFile`. -/
def specSeq (g : String → String) (dirPath : String) : List RItem → List FileRecord
  | [] => []
  | it :: rest => specFile g dirPath it ++ specSeq g dirPath rest

end

mutual

/-- All computed paths of a subtree (files and directories, pruned or not);
used to state the well-formedness hypothesis that the tree has no
duplicate paths. -/
def entryPaths (dirPath : String) : RItem → List String
  | .file n => [joinPath dirPath n]
  | .dir n sub =>
    joinPath dirPath n :: seqPaths (joinPath dirPath n) sub

/-- List version of `entryPaths`. -/
def seqPaths (dirPath : String) : List RItem → List String
  | [] => []
  | it :: rest => entryPaths dirPath it ++ seqPaths dirPath rest

end

mutual

/-- Spec-side: every file entry reachable in the tree (no filtering),
as a pair (computed path, parent directory path). -/
def fileEntriesOf (dirPath : String) : RItem → List (String × String)
  | .file n => [(joinPath dirPath n, dirPath)]
  | .dir n sub => fileEntriesSeq (joinPath dirPath n) sub

/-- List version of `fileEntriesOf`. -/
def fileEntriesSeq (dirPath : String) : List RItem → List (String × String)
  | [] => []
  | it :: rest => fileEntriesOf dirPath it ++ fileEntriesSeq dirPath rest

end

/-- A per-file fetch that always succeeds with content `g path`. -/
def okFetch (g : String → String) : String → Except String String :=
  fun q => .ok (g q)

/-- Directory listings that always succeed. -/
def noLsErr : String → Option String := fun _ => none

lemma stringMk_data (s : String) : String.mk s.data = s := by cases s; rfl

lemma data_eq_nil_iff (s : String) : s.data = [] ↔ s = "" :=
  ⟨fun h => String.ext h, fun h => h ▸ rfl⟩

lemma infixAt_iff (n : List Char) : ∀ hay, infixAt n hay = true ↔ n <:+: hay := by
  intro hay
  induction hay with
  | nil => simp [infixAt, List.isEmpty_iff, List.infix_nil]
  | cons c rest ih =>
    simp [infixAt, ih, List.infix_cons_iff, List.isPrefixOf_iff_prefix]

lemma containsSub_mono {q r : String} (h : q.data <+: r.data) {d : String}
    (hd : containsSub q d = true) : containsSub r d = true := by
  unfold containsSub at hd ⊢
  rw [infixAt_iff] at hd ⊢
  exact hd.trans h.isInfix

lemma exclSub_mono {q r : String} (h : q.data <+: r.data) (hq : exclSub q = true) :
    exclSub r = true := by
  unfold exclSub at hq ⊢
  rw [List.any_eq_true] at hq ⊢
  obtain ⟨d, hd, hc⟩ := hq
  exact ⟨d, hd, containsSub_mono h hc⟩

lemma joinPath_extends (base n : String) : base.data <+: (joinPath base n).data := by
  unfold joinPath
  split_ifs with h
  · rw [h]; exact List.nil_prefix
  · rw [String.data_append, String.data_append, List.append_assoc]
    exact List.prefix_append _ _

mutual

theorem fileEntriesOf_extends : ∀ (it : RItem) (dirPath p par : String),
    (p, par) ∈ fileEntriesOf dirPath it → dirPath.data <+: par.data
  | .file n, dirPath, p, par, h => by
    simp only [fileEntriesOf, List.mem_singleton, Prod.mk.injEq] at h
    rw [h.2]
  | .dir n sub, dirPath, p, par, h => by
    simp only [fileEntriesOf] at h
    exact (joinPath_extends dirPath n).trans (fileEntriesSeq_extends sub (joinPath dirPath n) p par h)

theorem fileEntriesSeq_extends : ∀ (items : List RItem) (dirPath p par : String),
    (p, par) ∈ fileEntriesSeq dirPath items → dirPath.data <+: par.data
  | [], _, _, _, h => by simp [fileEntriesSeq] at h
  | it :: rest, dirPath, p, par, h => by
    simp only [fileEntriesSeq, List.mem_append] at h
    rcases h with h | h
    · exact fileEntriesOf_extends it dirPath p par h
    · exact fileEntriesSeq_extends rest dirPath p par h

end

mutual

theorem specFile_path_mem : ∀ (g : String → String) (it : RItem) (dirPath p : String),
    exclSub dirPath = false →
    (p ∈ (specFile g dirPath it).map FileRecord.path ↔
      ∃ par, (p, par) ∈ fileEntriesOf dirPath it ∧ fileOK p = true ∧ exclSub par = false)
  | g, .file n, dirPath, p, hdp => by
    simp only [specFile, fileEntriesOf]
    by_cases hOK : fileOK (joinPath dirPath n)
    · rw [if_pos hOK]
      constructor
      · intro h
        simp only [List.map_cons, List.map_nil, List.mem_singleton] at h
        exact ⟨dirPath, by simp [h], by rw [h]; exact hOK, hdp⟩
      · intro ⟨par, hmem, _, _⟩
        simp only [List.mem_singleton, Prod.mk.injEq] at hmem
        simp [hmem.1]
    · rw [if_neg hOK]
      simp only [List.map_nil, List.not_mem_nil, false_iff]
      intro ⟨par, hmem, hpOK, _⟩
      simp only [List.mem_singleton, Prod.mk.injEq] at hmem
      rw [hmem.1] at hpOK
      exact hOK hpOK
  | g, .dir n sub, dirPath, p, hdp => by
    simp only [specFile, fileEntriesOf]
    by_cases hex : exclSub (joinPath dirPath n)
    · rw [if_pos hex]
      simp only [List.map_nil, List.not_mem_nil, false_iff]
      intro ⟨par, hmem, _, hpar⟩
      have hpre := fileEntriesSeq_extends sub (joinPath dirPath n) p par hmem
      have htrue := exclSub_mono hpre hex
      rw [hpar] at htrue
      exact Bool.noConfusion htrue
    · rw [if_neg hex]
      rw [Bool.not_eq_true] at hex
      exact specSeq_path_mem g sub (joinPath dirPath n) p hex

theorem specSeq_path_mem : ∀ (g : String → String) (items : List RItem) (dirPath p : String),
    exclSub dirPath = false →
    (p ∈ (specSeq g dirPath items).map FileRecord.path ↔
      ∃ par, (p, par) ∈ fileEntriesSeq dirPath items ∧ fileOK p = true ∧ exclSub par = false)
  | g, [], dirPath, p, hdp => by
    simp [specSeq, fileEntriesSeq]
  | g, it :: rest, dirPath, p, hdp => by
    simp only [specSeq, fileEntriesSeq, List.map_append, List.mem_append]
    rw [specFile_path_mem g it dirPath p hdp, specSeq_path_mem g rest dirPath p hdp]
    constructor
    · rintro (⟨par, h1, h2, h3⟩ | ⟨par, h1, h2, h3⟩)
      · exact ⟨par, Or.inl h1, h2, h3⟩
      · exact ⟨par, Or.inr h1, h2, h3⟩
    · rintro ⟨par, h1 | h1, h2, h3⟩
      · exact Or.inl ⟨par, h1, h2, h3⟩
      · exact Or.inr ⟨par, h1, h2, h3⟩

end

mutual

theorem procItem_ok : ∀ (g : String → String) (dirPath : String) (len : Nat)
    (it : RItem) (st : PState),
    (entryPaths dirPath it).Nodup →
    (∀ q ∈ entryPaths dirPath it, q ∉ st.processed) →
    ∃ st' : PState, procItem (okFetch g) noLsErr dirPath len it st = (st', none) ∧
      st'.files = st.files ++ specFile g dirPath it ∧
      st.processed ⊆ st'.processed ∧
      (∀ q ∈ st'.processed, q ∈ st.processed ∨ q ∈ entryPaths dirPath it)
  | g, dirPath, len, .file n, st, hnd, hdis => by
    have hp_mem : joinPath dirPath n ∈ entryPaths dirPath (.file n) := by
      simp [entryPaths]
    have hpnot : joinPath dirPath n ∉ st.processed := hdis _ hp_mem
    simp only [procItem, RItem.name]
    rw [if_neg hpnot]
    by_cases hOK : fileOK (joinPath dirPath n)
    · rw [if_pos hOK]
      refine ⟨_, rfl, ?_, ?_, ?_⟩
      · simp [specFile, if_pos hOK]
      · intro q hq; exact List.mem_cons_of_mem _ hq
      · intro q hq
        rcases List.mem_cons.mp hq with h | h
        · exact Or.inr (h ▸ hp_mem)
        · exact Or.inl h
    · rw [if_neg hOK]
      refine ⟨_, rfl, ?_, ?_, ?_⟩
      · simp [specFile, if_neg hOK]
      · intro q hq; exact List.mem_cons_of_mem _ hq
      · intro q hq
        rcases List.mem_cons.mp hq with h | h
        · exact Or.inr (h ▸ hp_mem)
        · exact Or.inl h
  | g, dirPath, len, .dir n sub, st, hnd, hdis => by
    have hp_mem : joinPath dirPath n ∈ entryPaths dirPath (.dir n sub) := by
      simp [entryPaths]
    have hpnot : joinPath dirPath n ∉ st.processed := hdis _ hp_mem
    simp only [procItem, RItem.name]
    rw [if_neg hpnot]
    by_cases hex : exclSub (joinPath dirPath n)
    · rw [if_pos hex]
      refine ⟨_, rfl, ?_, ?_, ?_⟩
      · simp [specFile, if_pos hex]
      · intro q hq; exact List.mem_cons_of_mem _ hq
      · intro q hq
        rcases List.mem_cons.mp hq with h | h
        · exact Or.inr (h ▸ hp_mem)
        · exact Or.inl h
    · rw [if_neg hex]
      have hnd' : (seqPaths (joinPath dirPath n) sub).Nodup := by
        simp only [entryPaths, List.nodup_cons] at hnd
        exact hnd.2
      have hhead : joinPath dirPath n ∉ seqPaths (joinPath dirPath n) sub := by
        simp only [entryPaths, List.nodup_cons] at hnd
        exact hnd.1
      have hdis' : ∀ q ∈ seqPaths (joinPath dirPath n) sub,
          q ∉ ({ st with processed := joinPath dirPath n :: st.processed } : PState).processed := by
        intro q hq
        simp only [List.mem_cons]
        rintro (h | h)
        · exact hhead (h ▸ hq)
        · exact hdis q (by simp [entryPaths, List.mem_cons, hq]) h
      obtain ⟨st', heq, hfiles, hsub, hnew⟩ :=
        procSeq_ok g (joinPath dirPath n) sub.length sub
          { st with processed := joinPath dirPath n :: st.processed } hnd' hdis'
      refine ⟨st', ?_, ?_, ?_, ?_⟩
      · show (match noLsErr (joinPath dirPath n) with
          | some e => ({ st with processed := joinPath dirPath n :: st.processed }, some e)
          | none => procSeq (okFetch g) noLsErr (joinPath dirPath n) sub.length sub
              { st with processed := joinPath dirPath n :: st.processed }) = (st', none)
        exact heq
      · rw [hfiles]
        simp [specFile, if_neg hex]
      · intro q hq
        exact hsub (List.mem_cons_of_mem _ hq)
      · intro q hq
        rcases hnew q hq with h | h
        · rcases List.mem_cons.mp h with h' | h'
          · exact Or.inr (h' ▸ hp_mem)
          · exact Or.inl h'
        · exact Or.inr (by simp [entryPaths, List.mem_cons, h])

theorem procSeq_ok : ∀ (g : String → String) (dirPath : String) (len : Nat)
    (items : List RItem) (st : PState),
    (seqPaths dirPath items).Nodup →
    (∀ q ∈ seqPaths dirPath items, q ∉ st.processed) →
    ∃ st' : PState, procSeq (okFetch g) noLsErr dirPath len items st = (st', none) ∧
      st'.files = st.files ++ specSeq g dirPath items ∧
      st.processed ⊆ st'.processed ∧
      (∀ q ∈ st'.processed, q ∈ st.processed ∨ q ∈ seqPaths dirPath items)
  | g, dirPath, len, [], st, _, _ => by
    refine ⟨st, rfl, by simp [specSeq], fun q hq => hq, fun q hq => Or.inl hq⟩
  | g, dirPath, len, it :: rest, st, hnd, hdis => by
    rw [seqPaths, List.nodup_append] at hnd
    obtain ⟨hnd1, hnd2, hdisj⟩ := hnd
    have hdis1 : ∀ q ∈ entryPaths dirPath it, q ∉ st.processed := fun q hq =>
      hdis q (by rw [seqPaths, List.mem_append]; exact Or.inl hq)
    obtain ⟨st1, heq1, hfiles1, hsub1, hnew1⟩ :=
      procItem_ok g dirPath len it st hnd1 hdis1
    have hdis2 : ∀ q ∈ seqPaths dirPath rest, q ∉ st1.processed := by
      intro q hq hmem
      rcases hnew1 q hmem with h | h
      · exact hdis q (by rw [seqPaths, List.mem_append]; exact Or.inr hq) h
      · exact hdisj h hq
    obtain ⟨st', heq2, hfiles2, hsub2, hnew2⟩ :=
      procSeq_ok g dirPath len rest st1 hnd2 hdis2
    refine ⟨st', ?_, ?_, ?_, ?_⟩
    · simp only [procSeq, heq1, heq2]
    · rw [hfiles2, hfiles1, specSeq, List.append_assoc]
    · exact fun q hq => hsub2 (hsub1 hq)
    · intro q hq
      rcases hnew2 q hq with h | h
      · rcases hnew1 q h with h' | h'
        · exact Or.inl h'
        · exact Or.inr (by rw [seqPaths, List.mem_append]; exact Or.inl h')
      · exact Or.inr (by rw [seqPaths, List.mem_append]; exact Or.inr h)

end

/-- The traversal stage of the remote variant (`await processContents()`),
with all fetches succeeding with content `g path`. -/
def remoteRun (g : String → String) (tree : List RItem) : PState × Option String :=
  procSeq (okFetch g) noLsErr "" tree.length tree ⟨[], [], initialEvents⟩

/-- Split a character list at a separator. -/
def splitCharGo (c : Char) (cur : List Char) : List Char → List (List Char)
  | [] => [cur.reverse]
  | x :: rest =>
    if x = c then cur.reverse :: splitCharGo c [] rest
    else splitCharGo c (x :: cur) rest

/-- The `/`-separated segments of a path. -/
def segmentsOf (p : String) : List String := (splitCharGo '/' [] p.data).map String.mk

/-- Spec-side definition (C3 claim): a file is included iff its basename is
not excluded, no ancestor directory *name* (whole path segment) is in
`EXCLUDED_DIRS`, and its extension is allowed or its basename is
`README.md`. -/
def claimIncluded (p : String) : Bool :=
  !(EXCLUDED_FILES.contains (basename p)) &&
  !((segmentsOf p).dropLast.any (fun seg => EXCLUDED_DIRS.contains seg)) &&
  (ALLOWED_EXTENSIONS.contains (extname p) || basename p == "README.md")

/-- C3 (amended): in the remote-API variant, for every duplicate-free tree,
a file is included in the collected records iff it is a file entry of the
tree whose basename is not in `EXCLUDED_FILES`, whose extension is allowed
or whose basename is `README.md`, and whose parent directory's *path*
contains no `EXCLUDED_DIRS` entry as a substring (the code prunes by
substring match on the whole path, not by comparing ancestor names as
whole segments). -/
theorem C3_remote_inclusion_characterization (g : String → String) (tree : List RItem)
    (hnd : (seqPaths "" tree).Nodup) (p : String) :
    (∃ f ∈ (remoteRun g tree).1.files, f.path = p) ↔
      ∃ par, (p, par) ∈ fileEntriesSeq "" tree ∧ fileOK p = true ∧ exclSub par = false := by
  obtain ⟨st', heq, hfiles, _, _⟩ :=
    procSeq_ok g "" tree.length tree ⟨[], [], initialEvents⟩ hnd
      (fun q _ hq => (List.not_mem_nil q) hq)
  rw [remoteRun, heq]
  have hmap : (∃ f ∈ st'.files, f.path = p) ↔ p ∈ st'.files.map FileRecord.path := by
    rw [List.mem_map]
  rw [hmap, hfiles]
  simp only [List.nil_append]
  exact specSeq_path_mem g tree "" p (by decide)

def badTree : List RItem := [.dir ".github" [.file "a.ts"]]

/-- C3 counterexample: the directory `.github` has no ancestor *name* in
`EXCLUDED_DIRS`, so the claimed segment-based invariant says `.github/a.ts`
is included; but the remote variant prunes `.github` because `".git"` is a
substring of its path, and collects nothing.  Likewise the full-copy
variant excludes the root file `foo.next.js` (allowed extension, no
excluded ancestor) because `".next"` occurs inside its own basename.  So
the claimed iff is false at these inputs. -/
theorem C3_counterexample :
    claimIncluded ".github/a.ts" = true ∧
    (".github/a.ts", ".github") ∈ fileEntriesSeq "" badTree ∧
    (remoteRun (fun _ => "x") badTree).1.files = [] ∧
    fullCopyIncluded "foo.next.js" = false ∧
    claimIncluded "foo.next.js" = true := by decide

/-- Witness for C3: on a concrete duplicate-free tree the characterization
applies and `src/a.ts` is included. -/
theorem C3_remote_inclusion_characterization_witness :
    (seqPaths "" [.dir "src" [.file "a.ts"], .file "README.md"]).Nodup ∧
    (∃ f ∈ (remoteRun (fun _ => "c") [.dir "src" [.file "a.ts"], .file "README.md"]).1.files,
      f.path = "src/a.ts") :=
  ⟨by decide,
   (C3_remote_inclusion_characterization (fun _ => "c") _ (by decide) "src/a.ts").mpr
     ⟨"src", by decide, by decide, by decide⟩⟩

/-- Traversal-phase messages carry no `error` or `content` field and a
progress value within [0, 100]. -/
def goodMsg (m : Message) : Prop :=
  m.error = none ∧ m.content = none ∧ ∀ q, m.progress = some q → 0 ≤ q ∧ q ≤ 100

lemma jsMin_fetch_bounds (k len : Nat) :
    0 ≤ jsMin 90 (5 + (85 * (k : Rat)) / (len : Rat)) ∧
    jsMin 90 (5 + (85 * (k : Rat)) / (len : Rat)) ≤ 100 := by
  have hx : (0 : Rat) ≤ 5 + (85 * (k : Rat)) / (len : Rat) := by
    have : (0 : Rat) ≤ (85 * (k : Rat)) / (len : Rat) :=
      div_nonneg (by positivity) (by positivity)
    linarith
  unfold jsMin
  split_ifs with h
  · norm_num
  · constructor
    · exact hx
    · push_neg at h
      linarith

mutual

theorem procItem_events : ∀ (fetch : String → Except String String)
    (lsErr : String → Option String) (dirPath : String) (len : Nat)
    (it : RItem) (st : PState),
    ∃ evs, ((procItem fetch lsErr dirPath len it st).1).events = st.events ++ evs ∧
      ∀ m ∈ evs, goodMsg m
  | fetch, lsErr, dirPath, len, .file n, st => by
    simp only [procItem, RItem.name]
    by_cases hmem : joinPath dirPath n ∈ st.processed
    · rw [if_pos hmem]
      exact ⟨[], by simp, by simp⟩
    · rw [if_neg hmem]
      by_cases hOK : fileOK (joinPath dirPath n)
      · rw [if_pos hOK]
        rcases hf : fetch (joinPath dirPath n) with e | content
        · exact ⟨[], by simp, by simp⟩
        · refine ⟨_, rfl, ?_⟩
          intro m hm
          rw [List.mem_singleton] at hm
          subst hm
          refine ⟨rfl, rfl, ?_⟩
          intro q hq
          rw [Option.some.injEq] at hq
          rw [← hq]
          exact jsMin_fetch_bounds _ _
      · rw [if_neg hOK]
        exact ⟨[], by simp, by simp⟩
  | fetch, lsErr, dirPath, len, .dir n sub, st => by
    simp only [procItem, RItem.name]
    by_cases hmem : joinPath dirPath n ∈ st.processed
    · rw [if_pos hmem]
      exact ⟨[], by simp, by simp⟩
    · rw [if_neg hmem]
      by_cases hex : exclSub (joinPath dirPath n)
      · rw [if_pos hex]
        exact ⟨[], by simp, by simp⟩
      · rw [if_neg hex]
        rcases hls : lsErr (joinPath dirPath n) with _ | e
        · simp only [hls]
          obtain ⟨evs, he, hg⟩ := procSeq_events fetch lsErr (joinPath dirPath n)
            sub.length sub { st with processed := joinPath dirPath n :: st.processed }
          exact ⟨evs, he, hg⟩
        · simp only [hls]
          exact ⟨[], by simp, by simp⟩

theorem procSeq_events : ∀ (fetch : String → Except String String)
    (lsErr : String → Option String) (dirPath : String) (len : Nat)
    (items : List RItem) (st : PState),
    ∃ evs, ((procSeq fetch lsErr dirPath len items st).1).events = st.events ++ evs ∧
      ∀ m ∈ evs, goodMsg m
  | fetch, lsErr, dirPath, len, [], st => ⟨[], by simp [procSeq], by simp⟩
  | fetch, lsErr, dirPath, len, it :: rest, st => by
    obtain ⟨evs1, he1, hg1⟩ := procItem_events fetch lsErr dirPath len it st
    rcases hres : procItem fetch lsErr dirPath len it st with ⟨st1, err⟩
    rw [hres] at he1
    cases err with
    | some e =>
      refine ⟨evs1, ?_, hg1⟩
      simp only [procSeq, hres]
      exact he1
    | none =>
      obtain ⟨evs2, he2, hg2⟩ := procSeq_events fetch lsErr dirPath len rest st1
      refine ⟨evs1 ++ evs2, ?_, ?_⟩
      · simp only [procSeq, hres]
        rw [he2, he1, List.append_assoc]
      · intro m hm
        rcases List.mem_append.mp hm with h | h
        · exact hg1 m h
        · exact hg2 m h

end

/-- Serialization-phase messages carry no `error` field and progress values
within [0, 100]. -/
lemma serializeGo_msgs (total : Nat) :
    ∀ (files : List FileRecord) (i : Nat) (batch : String),
      i + files.length ≤ total →
      ∀ m ∈ serializeGo total i batch files,
        m.error = none ∧ ∀ q, m.progress = some q → 0 ≤ q ∧ q ≤ 100 := by
  intro files
  induction files with
  | nil => intro i batch _ m hm; simp [serializeGo] at hm
  | cons f rest ih =>
    intro i batch hle m hm
    have hi1 : i + 1 ≤ total := by simp [List.length_cons] at hle; omega
    have htot : 0 < total := by omega
    have hdiv : (10 * (i + 1)) / total ≤ 10 := by
      calc (10 * (i + 1)) / total ≤ (10 * total) / total :=
            Nat.div_le_div_right (by omega)
        _ = 10 := Nat.mul_div_cancel 10 htot
    rw [serializeGo] at hm
    by_cases hcond : (i + 1) % 10 = 0 ∨ rest = []
    · rw [if_pos hcond] at hm
      rcases List.mem_cons.mp hm with h | h
      · subst h
        exact ⟨rfl, fun q hq => by simp at hq⟩
      · rcases List.mem_cons.mp h with h' | h'
        · subst h'
          refine ⟨rfl, fun q hq => ?_⟩
          rw [Option.some.injEq] at hq
          rw [← hq]
          constructor
          · positivity
          · have : (90 + (10 * (i + 1)) / total : Nat) ≤ 100 := by omega
            exact_mod_cast Nat.cast_le.mpr this
        · exact ih (i + 1) "" (by simp [List.length_cons] at hle; omega) m h'
    · rw [if_neg hcond] at hm
      exact ih (i + 1) (batch ++ formatEntry f) (by simp [List.length_cons] at hle; omega) m hm

/-- No message produced by `processRepository` (either outcome) carries an
`error` field: the only `{error}` message comes from the POST handler's
catch. -/
lemma processRepositoryV1_noerr (fetch : String → Except String String)
    (lsErr : String → Option String) (tree : List RItem) :
    ∀ m ∈ (processRepositoryV1 fetch lsErr tree).1, m.error = none := by
  intro m hm
  rw [processRepositoryV1] at hm
  rcases hls : lsErr "" with _ | e
  · rw [hls] at hm
    obtain ⟨evs, he, hg⟩ := procSeq_events fetch lsErr "" tree.length tree ⟨[], [], initialEvents⟩
    rcases hres : procSeq fetch lsErr "" tree.length tree ⟨[], [], initialEvents⟩ with ⟨st', err⟩
    rw [hres] at he hm
    cases err with
    | some e =>
      simp only at hm
      rw [he] at hm
      rcases List.mem_append.mp hm with h | h
      · rcases List.mem_singleton.mp h with rfl; rfl
      · exact (hg m h).1
    | none =>
      simp only at hm
      rcases List.mem_append.mp hm with h | h
      · rcases List.mem_append.mp h with h' | h'
        · rw [he] at h'
          rcases List.mem_append.mp h' with h'' | h''
          · rcases List.mem_singleton.mp h'' with rfl; rfl
          · exact (hg m h'').1
        · exact (serializeGo_msgs _ _ 0 "" (by simp) m h').1
      · rcases List.mem_singleton.mp h with rfl; rfl
  · rw [hls] at hm
    simp only at hm
    rcases List.mem_singleton.mp hm with rfl; rfl

/-- The progress values of a message stream, in emission order. -/
def progressVals (evs : List Message) : List Rat := evs.filterMap Message.progress

/-- C5 (amended): in every successful run of the remote variant, every
emitted progress value is a rational in [0, 100] and the final event of the
run carries progress 100 (with status "Analysis complete!").  The claim's
stronger properties -- integrality, monotonicity, and 100 appearing only on
the final event -- are refuted by `C5_counterexample`. -/
theorem C5_progress_bounds (fetch : String → Except String String)
    (lsErr : String → Option String) (tree : List RItem)
    (hsucc : (processRepositoryV1 fetch lsErr tree).2 = none) :
    (∀ m ∈ (processRepositoryV1 fetch lsErr tree).1, ∀ q, m.progress = some q →
      0 ≤ q ∧ q ≤ 100) ∧
    (processRepositoryV1 fetch lsErr tree).1.getLast? =
      some { progress := some 100, status := some "Analysis complete!" } := by
  obtain ⟨evs, he, hg⟩ := procSeq_events fetch lsErr "" tree.length tree ⟨[], [], initialEvents⟩
  rcases hres : procSeq fetch lsErr "" tree.length tree ⟨[], [], initialEvents⟩ with ⟨st', err⟩
  rw [hres] at he
  rcases hls : lsErr "" with _ | e
  · cases err with
    | some e =>
      simp only [processRepositoryV1, hls, hres] at hsucc
      exact Option.noConfusion hsucc
    | none =>
      simp only [processRepositoryV1, hls, hres]
      constructor
      · intro m hm q hq
        rcases List.mem_append.mp hm with h | h
        · rcases List.mem_append.mp h with h' | h'
          · rw [he] at h'
            rcases List.mem_append.mp h' with h'' | h''
            · rcases List.mem_singleton.mp h'' with rfl
              rw [show (({ progress := some 5, status := some "Fetching repository contents..." } :
                Message)).progress = some 5 from rfl, Option.some.injEq] at hq
              rw [← hq]
              norm_num
            · exact (hg m h'').2.2 q hq
          · exact ((serializeGo_msgs _ _ 0 "" (by simp) m h').2) q hq
        · rcases List.mem_singleton.mp h with rfl
          rw [show (({ progress := some 100, status := some "Analysis complete!" } :
            Message)).progress = some 100 from rfl, Option.some.injEq] at hq
          rw [← hq]
          norm_num
      · exact List.getLast?_concat _
  · simp only [processRepositoryV1, hls] at hsucc
    exact Option.noConfusion hsucc

/-- C6: whenever `processRepository` fails (any fetch or listing error at
any stage), the POST handler appends exactly one terminal `{error}` message
-- every earlier message has no `error` field -- and then closes the
stream; nothing follows the error event. -/
theorem C6_error_terminal (fetch : String → Except String String) (lsErr : String → Option String)
    (tree : List RItem) (e : String)
    (herr : (processRepositoryV1 fetch lsErr tree).2 = some e) :
    (runPOSTv1 fetch lsErr tree).1.getLast? = some { error := some e } ∧
    (∀ m ∈ (runPOSTv1 fetch lsErr tree).1.dropLast, m.error = none) ∧
    (runPOSTv1 fetch lsErr tree).2 = true := by
  rcases hpr : processRepositoryV1 fetch lsErr tree with ⟨evs, err⟩
  rw [hpr] at herr
  simp only at herr
  subst herr
  simp only [runPOSTv1, hpr]
  refine ⟨List.getLast?_concat _, ?_, trivial⟩
  intro m hm
  rw [List.dropLast_concat] at hm
  have := processRepositoryV1_noerr fetch lsErr tree
  rw [hpr] at this
  exact this m hm

def cexTree : List RItem := [.dir "d" [.file "x.ts"], .file "a.ts", .file "b.ts"]

def cexEvents : List Message :=
  (processRepositoryV1 (okFetch (fun _ => "")) noLsErr cexTree).1

/-- C5 counterexample: on a tree whose root lists a one-file directory
before two root files, the successful run emits the progress sequence
`[5, 90, 185/3, 90, 100, 100]`: the value `185/3` is not an integer, the
sequence decreases from 90 to 185/3, and 100 also appears on the
penultimate (batch) event, refuting all three claimed properties. -/
theorem C5_counterexample :
    progressVals cexEvents = [5, 90, 5 + 85 * 2 / 3, 90, 100, 100] ∧
    (5 + 85 * 2 / 3 : Rat).den ≠ 1 ∧
    (5 + 85 * 2 / 3 : Rat) < 90 ∧
    ¬ (List.Chain' (· ≤ ·) (progressVals cexEvents) ∧
       (∀ q ∈ progressVals cexEvents, q.den = 1 ∧ 0 ≤ q ∧ q ≤ 100) ∧
       (∀ i, i + 1 < (progressVals cexEvents).length →
         (progressVals cexEvents).get? i ≠ some 100)) := by
  have hlist : progressVals cexEvents = [5, 90, 5 + 85 * 2 / 3, 90, 100, 100] := by
    with_unfolding_all decide
  refine ⟨hlist, by with_unfolding_all decide, by norm_num, ?_⟩
  rintro ⟨-, -, h100⟩
  have : (progressVals cexEvents).get? 4 ≠ some 100 := h100 4 (by rw [hlist]; decide)
  rw [hlist] at this
  exact this rfl

/-- Witness for C5: a concrete successful one-file run. -/
theorem C5_progress_bounds_witness :
    (processRepositoryV1 (okFetch (fun _ => "x")) noLsErr [.file "a.ts"]).2 = none ∧
    ((∀ m ∈ (processRepositoryV1 (okFetch (fun _ => "x")) noLsErr [.file "a.ts"]).1,
        ∀ q, m.progress = some q → 0 ≤ q ∧ q ≤ 100) ∧
      (processRepositoryV1 (okFetch (fun _ => "x")) noLsErr [.file "a.ts"]).1.getLast? =
        some { progress := some 100, status := some "Analysis complete!" }) :=
  ⟨by with_unfolding_all decide,
   C5_progress_bounds _ _ _ (by with_unfolding_all decide)⟩

/-- Witness for C6: a run whose single file fetch fails with "boom". -/
theorem C6_error_terminal_witness :
    (processRepositoryV1 (fun _ => .error "boom") noLsErr [.file "a.ts"]).2 = some "boom" ∧
    ((runPOSTv1 (fun _ => .error "boom") noLsErr [.file "a.ts"]).1.getLast? =
        some { error := some "boom" } ∧
      (∀ m ∈ (runPOSTv1 (fun _ => .error "boom") noLsErr [.file "a.ts"]).1.dropLast,
        m.error = none) ∧
      (runPOSTv1 (fun _ => .error "boom") noLsErr [.file "a.ts"]).2 = true) :=
  ⟨by decide, C6_error_terminal _ _ _ _ (by decide)⟩

/-! ### C7: repository-reference parsing

The remote-API variant uses `parseGitHubUrl` (`route.ts` lines 59-68):
strip a trailing `.git`, then match the regex
`/github\.com[\/:]([\w-]+)\/([\w-]+)/` anywhere in the string.  The
full-copy variant first normalizes with `convertToHttpsUrl`
(lines 246-267) and re-parses with the same regex (lines 353-359, without
the `.git` strip) inside `processRepository` -- after the temporary
directory was created. -/

/-- A character of the regex class `[\w-]`. -/
def isWordDash (c : Char) : Bool :=
  c.isAlpha || c.isDigit || c == '_' || c == '-'

/-- Attempt the regex at the start of `s`: literal `github.com`, one of
`/` or `:`, a nonempty greedy `[\w-]+` capture, a literal `/`, and a
second nonempty `[\w-]+` capture.  (Because `/` is not in `[\w-]`, the
greedy captures never need to backtrack.) -/
def ghTry (s : List Char) : Option (String × String) :=
  if "github.com".data.isPrefixOf s then
    match s.drop 10 with
    | [] => none
    | c :: r2 =>
      if c = '/' ∨ c = ':' then
        let o := r2.takeWhile isWordDash
        if o.isEmpty then none
        else
          match r2.drop o.length with
          | '/' :: r3 =>
            let r := r3.takeWhile isWordDash
            if r.isEmpty then none else some (String.mk o, String.mk r)
          | _ => none
      else none
  else none

/-- The regex engine's left-to-right scan: the match at the earliest
feasible start position wins. -/
def ghSearch : List Char → Option (String × String)
  | [] => none
  | c :: rest =>
    match ghTry (c :: rest) with
    | some x => some x
    | none => ghSearch rest

/-- `url.replace(/\.git$/, "")`. -/
def stripDotGit (url : String) : String :=
  if ".git".data.isSuffixOf url.data then String.mk (url.data.take (url.data.length - 4))
  else url

/-- `parseGitHubUrl` of the remote-API variant (`route.ts` lines 59-68). -/
def parseGitHubUrlV1 (url : String) : Except String (String × String) :=
  match ghSearch (stripDotGit url).data with
  | some p => .ok p
  | none => .error "Invalid GitHub URL format"

/-- `parseGitHubUrl` of the full-copy variant (`route.ts` lines 353-359):
same regex, no `.git` strip (the caller already normalized). -/
def parseGitHubUrlV2 (url : String) : Except String (String × String) :=
  match ghSearch url.data with
  | some p => .ok p
  | none => .error "Invalid GitHub URL format"

/-- JS `s.split(sep)` for a single-character separator. -/
def splitChar (c : Char) (s : List Char) : List String :=
  (splitCharGo c [] s).map String.mk

/-- `convertToHttpsUrl` (`route.ts` lines 246-267).  A missing second
segment after `git@github.com:` destructures to JS `undefined`, which the
template literal renders as the string "undefined". -/
def convertToHttpsUrl (url : String) : Except String String :=
  let u := stripDotGit url
  if "https://".data.isPrefixOf u.data then .ok u
  else if "git@github.com:".data.isPrefixOf u.data then
    let parts := splitChar '/' (u.data.drop 15)
    let owner := (parts.get? 0).getD "undefined"
    let repo := (parts.get? 1).getD "undefined"
    .ok ("https://github.com/" ++ owner ++ "/" ++ repo)
  else if u.data.contains '/' then
    let parts := splitChar '/' u.data
    let owner := (parts.get? (parts.length - 2)).getD "undefined"
    let repo := (parts.get? (parts.length - 1)).getD "undefined"
    .ok ("https://github.com/" ++ owner ++ "/" ++ repo)
  else .error "Invalid GitHub repository URL format"

lemma takeWhile_all {p : Char → Bool} : ∀ {xs : List Char}, (∀ x ∈ xs, p x = true) →
    xs.takeWhile p = xs
  | [], _ => rfl
  | x :: xs, h => by
    rw [List.takeWhile_cons, h x (List.mem_cons_self x xs)]
    simp only
    rw [takeWhile_all (fun y hy => h y (List.mem_cons_of_mem x hy))]
    simp

lemma takeWhile_append_stop {p : Char → Bool} {y : Char} (hy : p y = false) :
    ∀ (xs : List Char) (ys : List Char), (∀ x ∈ xs, p x = true) →
      (xs ++ y :: ys).takeWhile p = xs
  | [], ys, _ => by simp [List.takeWhile_cons, hy]
  | x :: xs, ys, h => by
    rw [List.cons_append, List.takeWhile_cons, h x (List.mem_cons_self x xs)]
    simp only
    rw [takeWhile_append_stop hy xs ys (fun z hz => h z (List.mem_cons_of_mem x hz))]
    simp

lemma isPrefixOf_false_of_absent {pre l : List Char} (c : Char) (hc : c ∈ pre)
    (hl : c ∉ l) : pre.isPrefixOf l = false := by
  by_contra h
  rw [Bool.not_eq_false, List.isPrefixOf_iff_prefix] at h
  exact hl (h.subset hc)

lemma not_suffix_dotgit_of_no_dot {l : List Char} (h : '.' ∉ l) :
    (".git".data.isSuffixOf l) = false := by
  by_contra hs
  rw [Bool.not_eq_false, List.isSuffixOf_iff_suffix] at hs
  exact h (hs.subset (by decide))

lemma not_suffix_dotgit_tail (head tail : List Char) (hlen : 4 ≤ tail.length)
    (hdot : '.' ∉ tail) : (".git".data.isSuffixOf (head ++ tail)) = false := by
  by_contra hs
  rw [Bool.not_eq_false, List.isSuffixOf_iff_suffix] at hs
  have hrev : ".git".data.reverse <+: (head ++ tail).reverse :=
    List.reverse_prefix.mpr hs
  have htake : ".git".data.reverse = ((head ++ tail).reverse).take 4 := by
    have h4 : (".git".data.reverse).length = 4 := by decide
    have := List.prefix_iff_eq_take.mp hrev
    rw [h4] at this
    exact this
  have hdot_in : '.' ∈ ((head ++ tail).reverse).take 4 := by
    rw [← htake]; decide
  rw [List.reverse_append] at hdot_in
  rw [List.take_append_of_le_length (by simpa using hlen)] at hdot_in
  exact hdot (List.mem_reverse.mp (List.mem_of_mem_take hdot_in))

lemma stripDotGit_no_dot_tail (head tail : List Char) (hlen : 4 ≤ tail.length)
    (hdot : '.' ∉ tail) : stripDotGit ⟨head ++ tail⟩ = ⟨head ++ tail⟩ := by
  have hfalse := not_suffix_dotgit_tail head tail hlen hdot
  simp [stripDotGit, hfalse]

lemma stripDotGit_strips (x : String) : stripDotGit (x ++ ".git") = x := by
  rw [stripDotGit]
  have hdata : (x ++ ".git").data = x.data ++ ".git".data := String.data_append x ".git"
  rw [hdata]
  rw [show (".git".data.isSuffixOf (x.data ++ ".git".data)) = true from
    (List.isSuffixOf_iff_suffix).mpr (List.suffix_append x.data ".git".data)]
  simp only [if_true]
  have hlen : x.data.length = (x.data ++ ".git".data).length - 4 := by
    rw [List.length_append]
    simp [show (".git".data).length = 4 from rfl]
  rw [← hlen, List.take_left]

lemma wordDash_no_dot {xs : List Char} (h : ∀ c ∈ xs, isWordDash c = true) : '.' ∉ xs := by
  intro hmem
  have := h '.' hmem
  simp [isWordDash] at this

lemma wordDash_no_char {xs : List Char} (h : ∀ c ∈ xs, isWordDash c = true)
    {y : Char} (hy : isWordDash y = false) : y ∉ xs := by
  intro hmem
  rw [h y hmem] at hy
  exact Bool.noConfusion hy

lemma ghTry_capture (sep : Char) (hsep : sep = '/' ∨ sep = ':')
    (o r : List Char) (ho : o ≠ []) (hr : r ≠ [])
    (how : ∀ c ∈ o, isWordDash c = true) (hrw : ∀ c ∈ r, isWordDash c = true) :
    ghTry ("github.com".data ++ sep :: (o ++ '/' :: r)) = some (String.mk o, String.mk r) := by
  rw [ghTry]
  rw [show ("github.com".data.isPrefixOf ("github.com".data ++ sep :: (o ++ '/' :: r))) = true
    from List.isPrefixOf_iff_prefix.mpr (List.prefix_append _ _)]
  simp only [if_true]
  rw [List.drop_left' (show ("github.com".data).length = 10 from rfl)]
  simp only
  rw [if_pos hsep]
  rw [takeWhile_append_stop (show isWordDash '/' = false from rfl) o r how]
  have hoE : o.isEmpty = false := by
    cases o with
    | nil => exact absurd rfl ho
    | cons _ _ => rfl
  rw [hoE]
  simp only [Bool.false_eq_true, if_false]
  rw [List.drop_left]
  simp only
  rw [takeWhile_all hrw]
  have hrE : r.isEmpty = false := by
    cases r with
    | nil => exact absurd rfl hr
    | cons _ _ => rfl
  rw [hrE]
  simp

lemma ghSearch_cons {c : Char} {rest : List Char} (h : ghTry (c :: rest) = none) :
    ghSearch (c :: rest) = ghSearch rest := by
  simp only [ghSearch, h]

lemma ghSearch_hit {s : List Char} {x : String × String} (hne : s ≠ [])
    (h : ghTry s = some x) : ghSearch s = some x := by
  cases s with
  | nil => exact absurd rfl hne
  | cons c rest => simp only [ghSearch, h]

lemma stripDotGit_id {s : String} (head tail : List Char) (hs : s.data = head ++ tail)
    (hlen : 4 ≤ tail.length) (hdot : '.' ∉ tail) : stripDotGit s = s := by
  have hfalse : (".git".data.isSuffixOf s.data) = false := by
    rw [hs]; exact not_suffix_dotgit_tail head tail hlen hdot
  simp [stripDotGit, hfalse]

lemma stripDotGit_id_of_no_dot {s : String} (h : '.' ∉ s.data) : stripDotGit s = s := by
  simp [stripDotGit, not_suffix_dotgit_of_no_dot h]

lemma ghSearch_no_dot : ∀ (s : List Char), '.' ∉ s → ghSearch s = none
  | [], _ => rfl
  | c :: rest, h => by
    have hpf : ("github.com".data.isPrefixOf (c :: rest)) = false := by
      by_contra hb
      rw [Bool.not_eq_false, List.isPrefixOf_iff_prefix] at hb
      exact h (hb.subset (by decide))
    have ht : ghTry (c :: rest) = none := by rw [ghTry, hpf]; simp
    rw [ghSearch_cons ht]
    exact ghSearch_no_dot rest (fun hm => h (List.mem_cons_of_mem c hm))

lemma splitCharGo_stop (c : Char) : ∀ (xs cur : List Char), (∀ x ∈ xs, x ≠ c) →
    splitCharGo c cur xs = [cur.reverse ++ xs]
  | [], cur, _ => by simp [splitCharGo]
  | x :: rest, cur, h => by
    rw [splitCharGo, if_neg (h x (List.mem_cons_self x rest))]
    rw [splitCharGo_stop c rest (x :: cur) (fun z hz => h z (List.mem_cons_of_mem x hz))]
    simp

lemma splitCharGo_sep (c : Char) : ∀ (xs : List Char) (cur ys : List Char),
    (∀ x ∈ xs, x ≠ c) →
    splitCharGo c cur (xs ++ c :: ys) = (cur.reverse ++ xs) :: splitCharGo c [] ys
  | [], cur, ys, _ => by simp [splitCharGo]
  | x :: rest, cur, ys, h => by
    rw [List.cons_append, splitCharGo, if_neg (h x (List.mem_cons_self x rest))]
    rw [splitCharGo_sep c rest (x :: cur) ys (fun z hz => h z (List.mem_cons_of_mem x hz))]
    simp

lemma splitChar_two (o r : String) (how : ∀ x ∈ o.data, isWordDash x = true)
    (hrw : ∀ x ∈ r.data, isWordDash x = true) :
    splitChar '/' (o.data ++ '/' :: r.data) = [o, r] := by
  have hno : ∀ x ∈ o.data, x ≠ '/' := fun x hx h =>
    wordDash_no_char how (show isWordDash '/' = false from rfl) (h ▸ hx)
  have hnr : ∀ x ∈ r.data, x ≠ '/' := fun x hx h =>
    wordDash_no_char hrw (show isWordDash '/' = false from rfl) (h ▸ hx)
  rw [splitChar, splitCharGo_sep '/' o.data [] r.data hno,
    splitCharGo_stop '/' r.data [] hnr]
  simp [stringMk_data]

lemma ghSearch_https_form (o r : String) (hoD : o.data ≠ []) (hrD : r.data ≠ [])
    (how : ∀ c ∈ o.data, isWordDash c = true) (hrw : ∀ c ∈ r.data, isWordDash c = true) :
    ghSearch ("https://github.com/" ++ o ++ "/" ++ r).data = some (o, r) := by
  have hdata : ("https://github.com/" ++ o ++ "/" ++ r).data =
      'h' :: 't' :: 't' :: 'p' :: 's' :: ':' :: '/' :: '/' :: 
        ("github.com".data ++ '/' :: (o.data ++ '/' :: r.data)) := by
    simp [String.data_append, List.append_assoc]
  rw [hdata]
  rw [show ghSearch ('h' :: 't' :: 't' :: 'p' :: 's' :: ':' :: '/' :: '/' :: 
        ("github.com".data ++ '/' :: (o.data ++ '/' :: r.data))) =
      ghSearch ("github.com".data ++ '/' :: (o.data ++ '/' :: r.data)) from rfl]
  rw [ghSearch_hit (by simp) (ghTry_capture '/' (Or.inl rfl) o.data r.data hoD hrD how hrw)]

lemma ghSearch_ssh_form (o r : String) (hoD : o.data ≠ []) (hrD : r.data ≠ [])
    (how : ∀ c ∈ o.data, isWordDash c = true) (hrw : ∀ c ∈ r.data, isWordDash c = true) :
    ghSearch ("git@github.com:" ++ o ++ "/" ++ r).data = some (o, r) := by
  have hdata : ("git@github.com:" ++ o ++ "/" ++ r).data =
      'g' :: 'i' :: 't' :: '@' :: ("github.com".data ++ ':' :: (o.data ++ '/' :: r.data)) := by
    simp [String.data_append, List.append_assoc]
  rw [hdata]
  rw [show ghSearch ('g' :: 'i' :: 't' :: '@' :: ("github.com".data ++ ':' :: (o.data ++ '/' :: r.data))) =
      ghSearch ("github.com".data ++ ':' :: (o.data ++ '/' :: r.data)) from rfl]
  rw [ghSearch_hit (by simp) (ghTry_capture ':' (Or.inr rfl) o.data r.data hoD hrD how hrw)]

lemma bare_no_dot (o r : String)
    (how : ∀ c ∈ o.data, isWordDash c = true) (hrw : ∀ c ∈ r.data, isWordDash c = true) :
    '.' ∉ (o ++ "/" ++ r).data := by
  rw [String.data_append, String.data_append]
  intro hm
  rcases List.mem_append.mp hm with hm | hm
  · rcases List.mem_append.mp hm with hm | hm
    · exact wordDash_no_dot how hm
    · simp at hm
  · exact wordDash_no_dot hrw hm

lemma https_strip_id (o r : String) (hoD : o.data ≠ []) (hrD : r.data ≠ [])
    (how : ∀ c ∈ o.data, isWordDash c = true) (hrw : ∀ c ∈ r.data, isWordDash c = true) :
    stripDotGit ("https://github.com/" ++ o ++ "/" ++ r) =
      "https://github.com/" ++ o ++ "/" ++ r := by
  apply stripDotGit_id "https://github.com".data ('/' :: (o.data ++ '/' :: r.data))
  · simp [String.data_append, List.append_assoc]
  · have h1 : 1 ≤ o.data.length := List.length_pos.mpr hoD
    have h2 : 1 ≤ r.data.length := List.length_pos.mpr hrD
    simp only [List.length_cons, List.length_append]
    omega
  · intro hm
    rcases List.mem_cons.mp hm with h | h
    · exact absurd h.symm (by decide)
    · rcases List.mem_append.mp h with h | h
      · exact wordDash_no_dot how h
      · rcases List.mem_cons.mp h with h | h
        · exact absurd h.symm (by decide)
        · exact wordDash_no_dot hrw h

lemma ssh_strip_id (o r : String) (hoD : o.data ≠ []) (hrD : r.data ≠ [])
    (how : ∀ c ∈ o.data, isWordDash c = true) (hrw : ∀ c ∈ r.data, isWordDash c = true) :
    stripDotGit ("git@github.com:" ++ o ++ "/" ++ r) = "git@github.com:" ++ o ++ "/" ++ r := by
  apply stripDotGit_id "git@github.com".data (':' :: (o.data ++ '/' :: r.data))
  · simp [String.data_append, List.append_assoc]
  · have h1 : 1 ≤ o.data.length := List.length_pos.mpr hoD
    have h2 : 1 ≤ r.data.length := List.length_pos.mpr hrD
    simp only [List.length_cons, List.length_append]
    omega
  · intro hm
    rcases List.mem_cons.mp hm with h | h
    · exact absurd h.symm (by decide)
    · rcases List.mem_append.mp h with h | h
      · exact wordDash_no_dot how h
      · rcases List.mem_cons.mp h with h | h
        · exact absurd h.symm (by decide)
        · exact wordDash_no_dot hrw h

lemma bare_wordslash (o r : String)
    (how : ∀ c ∈ o.data, isWordDash c = true) (hrw : ∀ c ∈ r.data, isWordDash c = true) :
    ∀ x ∈ o.data ++ '/' :: r.data, isWordDash x = true ∨ x = '/' := by
  intro x hx
  rcases List.mem_append.mp hx with h | h
  · exact Or.inl (how x h)
  · rcases List.mem_cons.mp h with h | h
    · exact Or.inr h
    · exact Or.inl (hrw x h)

lemma convert_ssh (o r : String) (hoD : o.data ≠ []) (hrD : r.data ≠ [])
    (how : ∀ c ∈ o.data, isWordDash c = true) (hrw : ∀ c ∈ r.data, isWordDash c = true) :
    convertToHttpsUrl ("git@github.com:" ++ o ++ "/" ++ r) =
      .ok ("https://github.com/" ++ o ++ "/" ++ r) := by
  rw [convertToHttpsUrl, ssh_strip_id o r hoD hrD how hrw]
  have hdata : ("git@github.com:" ++ o ++ "/" ++ r).data =
      "git@github.com:".data ++ (o.data ++ '/' :: r.data) := by
    simp [String.data_append, List.append_assoc]
  rw [hdata]
  rw [show ("https://".data.isPrefixOf ("git@github.com:".data ++ (o.data ++ '/' :: r.data))) =
      false from rfl]
  simp only [Bool.false_eq_true, if_false]
  rw [show ("git@github.com:".data.isPrefixOf
        ("git@github.com:".data ++ (o.data ++ '/' :: r.data))) = true from
    List.isPrefixOf_iff_prefix.mpr (List.prefix_append _ _)]
  simp only [if_true]
  rw [List.drop_left' (show ("git@github.com:".data).length = 15 from rfl)]
  rw [splitChar_two o r how hrw]
  rfl

lemma convert_bare (o r : String) (hoD : o.data ≠ []) (hrD : r.data ≠ [])
    (how : ∀ c ∈ o.data, isWordDash c = true) (hrw : ∀ c ∈ r.data, isWordDash c = true) :
    convertToHttpsUrl (o ++ "/" ++ r) = .ok ("https://github.com/" ++ o ++ "/" ++ r) := by
  rw [convertToHttpsUrl, stripDotGit_id_of_no_dot (bare_no_dot o r how hrw)]
  have hdata : (o ++ "/" ++ r).data = o.data ++ '/' :: r.data := by
    simp [String.data_append, List.append_assoc]
  rw [hdata]
  have hall := bare_wordslash o r how hrw
  have habsent : ∀ (y : Char), isWordDash y = false → y ≠ '/' → y ∉ o.data ++ '/' :: r.data := by
    intro y hy hslash hm
    rcases hall y hm with h | h
    · rw [hy] at h; exact Bool.noConfusion h
    · exact hslash h
  rw [isPrefixOf_false_of_absent ':' (by decide)
    (habsent ':' (by decide) (by decide))]
  simp only [Bool.false_eq_true, if_false]
  rw [isPrefixOf_false_of_absent '@' (by decide)
    (habsent '@' (by decide) (by decide))]
  simp only [Bool.false_eq_true, if_false]
  rw [show ((o.data ++ '/' :: r.data).contains '/') = true from
    List.elem_iff.mpr (by simp)]
  simp only [if_true]
  rw [splitChar_two o r how hrw]
  rfl

lemma convert_https (o r : String) (hoD : o.data ≠ []) (hrD : r.data ≠ [])
    (how : ∀ c ∈ o.data, isWordDash c = true) (hrw : ∀ c ∈ r.data, isWordDash c = true) :
    convertToHttpsUrl ("https://github.com/" ++ o ++ "/" ++ r) =
      .ok ("https://github.com/" ++ o ++ "/" ++ r) := by
  rw [convertToHttpsUrl, https_strip_id o r hoD hrD how hrw]
  have hdata : ("https://github.com/" ++ o ++ "/" ++ r).data =
      "https://".data ++ ("github.com/".data ++ (o.data ++ '/' :: r.data)) := by
    simp [String.data_append, List.append_assoc]
  rw [hdata]
  rw [show ("https://".data.isPrefixOf
        ("https://".data ++ ("github.com/".data ++ (o.data ++ '/' :: r.data)))) = true from
    List.isPrefixOf_iff_prefix.mpr (List.prefix_append _ _)]
  simp

lemma convert_https_git (o r : String) (hoD : o.data ≠ []) (hrD : r.data ≠ [])
    (how : ∀ c ∈ o.data, isWordDash c = true) (hrw : ∀ c ∈ r.data, isWordDash c = true) :
    convertToHttpsUrl ("https://github.com/" ++ o ++ "/" ++ r ++ ".git") =
      .ok ("https://github.com/" ++ o ++ "/" ++ r) := by
  rw [convertToHttpsUrl, stripDotGit_strips]
  have hdata : ("https://github.com/" ++ o ++ "/" ++ r).data =
      "https://".data ++ ("github.com/".data ++ (o.data ++ '/' :: r.data)) := by
    simp [String.data_append, List.append_assoc]
  rw [hdata]
  rw [show ("https://".data.isPrefixOf
        ("https://".data ++ ("github.com/".data ++ (o.data ++ '/' :: r.data)))) = true from
    List.isPrefixOf_iff_prefix.mpr (List.prefix_append _ _)]
  simp

/-- C7 (amended): for every owner and repository name built from `[\w-]`
characters, the remote-API parser accepts the full HTTPS form, the
HTTPS+`.git` form, and the SSH form, yielding the owner and name, but
rejects the bare `owner/repo` form with the invalid-reference error (before
any I/O); the full-copy variant's normalizer accepts all four forms and
yields the canonical HTTPS url.  (A malformed reference can still reach the
full-copy pipeline, where the parse failure occurs only after the temporary
directory is created: see `C7_counterexample`.) -/
theorem C7_reference_forms (o r : String) (ho : o ≠ "") (hr : r ≠ "")
    (how : ∀ c ∈ o.data, isWordDash c = true) (hrw : ∀ c ∈ r.data, isWordDash c = true) :
    parseGitHubUrlV1 ("https://github.com/" ++ o ++ "/" ++ r) = .ok (o, r) ∧
    parseGitHubUrlV1 ("https://github.com/" ++ o ++ "/" ++ r ++ ".git") = .ok (o, r) ∧
    parseGitHubUrlV1 ("git@github.com:" ++ o ++ "/" ++ r) = .ok (o, r) ∧
    parseGitHubUrlV1 (o ++ "/" ++ r) = .error "Invalid GitHub URL format" ∧
    convertToHttpsUrl ("https://github.com/" ++ o ++ "/" ++ r) =
      .ok ("https://github.com/" ++ o ++ "/" ++ r) ∧
    convertToHttpsUrl ("https://github.com/" ++ o ++ "/" ++ r ++ ".git") =
      .ok ("https://github.com/" ++ o ++ "/" ++ r) ∧
    convertToHttpsUrl ("git@github.com:" ++ o ++ "/" ++ r) =
      .ok ("https://github.com/" ++ o ++ "/" ++ r) ∧
    convertToHttpsUrl (o ++ "/" ++ r) = .ok ("https://github.com/" ++ o ++ "/" ++ r) := by
  have hoD : o.data ≠ [] := fun h => ho ((data_eq_nil_iff o).mp h)
  have hrD : r.data ≠ [] := fun h => hr ((data_eq_nil_iff r).mp h)
  refine ⟨?_, ?_, ?_, ?_, ?_, ?_, ?_, ?_⟩
  · rw [parseGitHubUrlV1, https_strip_id o r hoD hrD how hrw,
      ghSearch_https_form o r hoD hrD how hrw]
  · rw [parseGitHubUrlV1, stripDotGit_strips,
      ghSearch_https_form o r hoD hrD how hrw]
  · rw [parseGitHubUrlV1, ssh_strip_id o r hoD hrD how hrw,
      ghSearch_ssh_form o r hoD hrD how hrw]
  · rw [parseGitHubUrlV1, stripDotGit_id_of_no_dot (bare_no_dot o r how hrw),
      ghSearch_no_dot _ (bare_no_dot o r how hrw)]
  · exact convert_https o r hoD hrD how hrw
  · exact convert_https_git o r hoD hrD how hrw
  · exact convert_ssh o r hoD hrD how hrw
  · exact convert_bare o r hoD hrD how hrw

/-- Witness for C7: the concrete reference `lappemic/repository-to-txt`. -/
theorem C7_reference_forms_witness :
    ("lappemic" ≠ "" ∧ "repository-to-txt" ≠ "" ∧
      (∀ c ∈ "lappemic".data, isWordDash c = true) ∧
      (∀ c ∈ "repository-to-txt".data, isWordDash c = true)) ∧
    parseGitHubUrlV1 "https://github.com/lappemic/repository-to-txt" =
      .ok ("lappemic", "repository-to-txt") ∧
    parseGitHubUrlV1 "lappemic/repository-to-txt" = .error "Invalid GitHub URL format" ∧
    convertToHttpsUrl "lappemic/repository-to-txt" =
      .ok "https://github.com/lappemic/repository-to-txt" :=
  ⟨⟨by decide, by decide, by decide, by decide⟩,
   (C7_reference_forms "lappemic" "repository-to-txt" (by decide) (by decide)
      (by decide) (by decide)).1,
   (C7_reference_forms "lappemic" "repository-to-txt" (by decide) (by decide)
      (by decide) (by decide)).2.2.2.1,
   (C7_reference_forms "lappemic" "repository-to-txt" (by decide) (by decide)
      (by decide) (by decide)).2.2.2.2.2.2.2⟩

/-! ### Full-copy variant (`route.ts` second document, lines 269-375) -/

/-- A node of the locally materialized repository file tree. -/
inductive FSEntry where
  | file (name : String) (content : String)
  | dir (name : String) (entries : List FSEntry)

mutual

/-- `getAllFiles` (`route.ts` lines 361-375): collect every file path
recursively, in readdir order, with no filtering.  Paths are built
relative to the temporary directory root (the code collects absolute
paths and later strips the `tempDir` prefix with `path.relative`;
`basename`/`extname` agree on both forms). -/
def getAllFilesEntry (base : String) : FSEntry → List String
  | .file n _ => [joinPath base n]
  | .dir n es => getAllFilesSeq (joinPath base n) es

/-- List version of `getAllFilesEntry`. -/
def getAllFilesSeq (base : String) : List FSEntry → List String
  | [] => []
  | e :: rest => getAllFilesEntry base e ++ getAllFilesSeq base rest

end

/-- The per-file loop of the full-copy `processRepository`
(`route.ts` lines 312-339): skip filtered files, read each kept file
(`readF`, which may fail), append to `currentBatch`, and flush when
`processedFiles % 10 === 0` or `processedFiles === totalFiles` (note:
`totalFiles` counts all files, before filtering). -/
def loopV2 (readF : String → Except String String) (total : Nat) :
    List String → Nat → String → List Message → List Message × Option String
  | [], _, _, evs =>
    (evs ++ [{ progress := some 100, status := some "Analysis complete!" }], none)
  | f :: rest, processed, batch, evs =>
    if fullCopyIncluded f then
      match readF f with
      | .error e => (evs, some e)
      | .ok content =>
        let batch' := batch ++ formatEntry ⟨f, content⟩
        let processed' := processed + 1
        if processed' % 10 = 0 ∨ processed' = total then
          loopV2 readF total rest processed' ""
            (evs ++ [{ content := some batch' },
              { progress := some ((30 + (65 * processed') / total : Nat) : Rat),
                status := some ("Processing files... (" ++ toString processed' ++ "/" ++
                  toString total ++ ")") }])
        else loopV2 readF total rest processed' batch' evs
    else loopV2 readF total rest processed batch evs

/-- The body of the full-copy `processRepository`'s `try` block: parse the
(already converted) url, download (`dl`, may fail), scan, and run the file
loop. -/
def bodyV2 (url : String) (dl : String → String → Except String (List FSEntry))
    (readF : String → Except String String) : List Message × Option String :=
  let ev0 : List Message := [{ progress := some 5, status := some "Downloading repository..." }]
  match parseGitHubUrlV2 url with
  | .error e => (ev0, some e)
  | .ok (owner, repo) =>
    match dl owner repo with
    | .error e => (ev0, some e)
    | .ok tree =>
      let files := getAllFilesSeq "" tree
      let evs := ev0 ++
        [{ progress := some 20, status := some "Repository downloaded successfully" },
         { progress := some 25, status := some "Scanning repository..." },
         { progress := some 30,
           status := some ("Found " ++ toString files.length ++ " files to analyze") }]
      loopV2 readF files.length files 0 "" evs

/-- The full-copy `processRepository` (`route.ts` lines 269-351): `mkdtemp`
first, then the `try` body, with `fs.rm(tempDir, ...)` in the `finally`,
i.e. executed on the success path and on every error path alike.  The
third component is the trace of filesystem operations on the temporary
directory. -/
def processRepositoryV2 (url : String) (dl : String → String → Except String (List FSEntry))
    (readF : String → Except String String) : List Message × Option String × List String :=
  match bodyV2 url dl readF with
  | (evs, none) => (evs, none, ["mkdtemp", "rm"])
  | (evs, some e) => (evs, some e, ["mkdtemp", "rm"])

/-- C8: in the full-copy variant, for every run -- url parse failure,
download failure, a read failure at any file, or success -- the filesystem
trace is exactly `mkdtemp` followed by `rm`: the ephemeral temporary
directory is removed on every exit path before the run ends. -/
theorem C8_tempdir_cleanup (url : String) (dl : String → String → Except String (List FSEntry))
    (readF : String → Except String String) :
    (processRepositoryV2 url dl readF).2.2 = ["mkdtemp", "rm"] ∧
    (processRepositoryV2 url dl readF).2.2.getLast? = some "rm" := by
  rw [processRepositoryV2]
  rcases bodyV2 url dl readF with ⟨evs, err⟩
  cases err with
  | none => exact ⟨rfl, rfl⟩
  | some e => exact ⟨rfl, rfl⟩

/-- C7 counterexample: the bare `owner/repo` form -- one of the four
accepted forms -- is rejected by the remote variant's parser (its regex
requires a literal `github.com`), refuting "for every input url in one of
the four accepted forms, reference parsing succeeds"; and in the full-copy
variant a malformed reference that survives normalization (any non-GitHub
`https://` url is passed through) fails only inside `processRepository`,
after `mkdtemp` has created the temporary directory, refuting "fails ...
before any network or filesystem activity". -/
theorem C7_counterexample :
    parseGitHubUrlV1 "lappemic/repository-to-txt" = .error "Invalid GitHub URL format" ∧
    convertToHttpsUrl "https://gitlab.com/a/b" = .ok "https://gitlab.com/a/b" ∧
    (processRepositoryV2 "https://gitlab.com/a/b" (fun _ _ => .ok []) (fun _ => .ok "")).2.1 =
      some "Invalid GitHub URL format" ∧
    (processRepositoryV2 "https://gitlab.com/a/b" (fun _ _ => .ok []) (fun _ => .ok "")).2.2 =
      ["mkdtemp", "rm"] :=
  ⟨rfl, rfl, rfl, rfl⟩
